import Mathlib

/-!
Verification development for the text segmenter of the gtts repository
(src/main.go).  Bytes are modelled as natural numbers, Go strings and
byte slices as lists of bytes, and the segmenter splitText together with
its helper findSplitPoint is translated function by function.
-/

namespace GTTS

/-- Embeds Go utf8.RuneStart: a byte that is not a UTF-8 continuation
byte, that is, b and 0xC0 differ from 0x80 (for bytes, b / 64 is not 2). -/
def runeStart (b : Nat) : Bool := b / 64 != 2

/-- A UTF-8 continuation byte: in the range 0x80 to 0xBF. -/
def cont (b : Nat) : Bool := 128 ≤ b && b ≤ 191

/-- The accept range for the second byte of a multi-byte sequence as in
Go utf8 (acceptRanges): special-cased for lead bytes 0xE0, 0xED, 0xF0
and 0xF4, otherwise the plain continuation range. -/
def accept2 (b0 b1 : Nat) : Bool :=
  if b0 = 224 then 160 ≤ b1 && b1 ≤ 191
  else if b0 = 237 then 128 ≤ b1 && b1 ≤ 159
  else if b0 = 240 then 144 ≤ b1 && b1 ≤ 191
  else if b0 = 244 then 128 ≤ b1 && b1 ≤ 143
  else cont b1

/-- The sequence length a UTF-8 lead byte announces (the first table of
Go utf8), 0 for bytes that cannot begin an encoded character. -/
def runeLen1 (b0 : Nat) : Nat :=
  if b0 < 128 then 1
  else if b0 < 194 then 0
  else if b0 < 224 then 2
  else if b0 < 240 then 3
  else if b0 < 245 then 4
  else 0

/-- The byte of a byte list at an index, 0 out of range (indexing in the
source is always in range where this is used). -/
def byteAt (l : List Nat) (i : Nat) : Nat := l.getD i 0

/-- Embeds the size component of Go utf8.DecodeRune on the front of a
byte list: some n when the first bytes form one valid encoded character
of n bytes, none when the front is empty, invalid or truncated (Go
returns RuneError with size 1 in the latter cases; see decodeRuneSize). -/
def decodeRune (l : List Nat) : Option Nat :=
  if l.length = 0 then none
  else if runeLen1 (byteAt l 0) = 1 then some 1
  else if runeLen1 (byteAt l 0) = 2 then
    if 2 ≤ l.length ∧ accept2 (byteAt l 0) (byteAt l 1) then some 2 else none
  else if runeLen1 (byteAt l 0) = 3 then
    if 3 ≤ l.length ∧ accept2 (byteAt l 0) (byteAt l 1) ∧ cont (byteAt l 2) then some 3
    else none
  else if runeLen1 (byteAt l 0) = 4 then
    if 4 ≤ l.length ∧ accept2 (byteAt l 0) (byteAt l 1) ∧ cont (byteAt l 2) ∧
        cont (byteAt l 3) then some 4
    else none
  else none

/-- Embeds the size returned by Go utf8.DecodeRune including the failure
convention: 0 on empty input, 1 on an invalid or truncated encoding. -/
def decodeRuneSize (l : List Nat) : Nat :=
  if l.length = 0 then 0 else (decodeRune l).getD 1

/-- A successful decode announces the length given by the lead byte. -/
lemma decodeRune_byte0 {l : List Nat} {n : Nat} (h : decodeRune l = some n) :
    runeLen1 (byteAt l 0) = n := by
  unfold decodeRune at h
  split_ifs at h <;> simp_all

/-- A successful decode has size between 1 and 4 and within the list. -/
lemma decodeRune_bounds {l : List Nat} {n : Nat} (h : decodeRune l = some n) :
    1 ≤ n ∧ n ≤ 4 ∧ n ≤ l.length := by
  unfold decodeRune at h
  split_ifs at h <;> simp at h <;> omega

/-- A decode of size 2 accepted the second byte. -/
lemma decodeRune_two {l : List Nat} (h : decodeRune l = some 2) :
    accept2 (byteAt l 0) (byteAt l 1) = true := by
  unfold decodeRune at h
  split_ifs at h <;> simp_all

/-- A decode of size 3 accepted the second byte and the third byte is a
continuation byte. -/
lemma decodeRune_three {l : List Nat} (h : decodeRune l = some 3) :
    accept2 (byteAt l 0) (byteAt l 1) = true ∧ cont (byteAt l 2) = true := by
  unfold decodeRune at h
  split_ifs at h <;> simp_all

/-- A decode of size 4 accepted the second byte and the third and fourth
bytes are continuation bytes. -/
lemma decodeRune_four {l : List Nat} (h : decodeRune l = some 4) :
    accept2 (byteAt l 0) (byteAt l 1) = true ∧ cont (byteAt l 2) = true ∧
      cont (byteAt l 3) = true := by
  unfold decodeRune at h
  split_ifs at h <;> simp_all

/-- Any byte passing an accept range is a continuation byte. -/
lemma accept2_range {a b : Nat} (hab : accept2 a b = true) : 128 ≤ b ∧ b ≤ 191 := by
  unfold accept2 cont at hab
  split_ifs at hab <;> simp_all <;> omega

/-- A continuation byte lies in the range 0x80 to 0xBF. -/
lemma cont_range {b : Nat} (hb : cont b = true) : 128 ≤ b ∧ b ≤ 191 := by
  unfold cont at hb
  simp_all

/-- All bytes of a decoded character after the lead byte are in the
continuation range 0x80 to 0xBF. -/
lemma decodeRune_cont {l : List Nat} {n j : Nat} (h : decodeRune l = some n)
    (h1 : 1 ≤ j) (h2 : j < n) : 128 ≤ byteAt l j ∧ byteAt l j ≤ 191 := by
  have hb := decodeRune_bounds h
  have hn : n = 2 ∨ n = 3 ∨ n = 4 := by omega
  rcases hn with hn | hn | hn <;> subst hn
  · have := decodeRune_two h
    have hj : j = 1 := by omega
    subst hj
    exact accept2_range this
  · have := decodeRune_three h
    have hj : j = 1 ∨ j = 2 := by omega
    rcases hj with hj | hj <;> subst hj
    · exact accept2_range this.1
    · exact cont_range this.2
  · have := decodeRune_four h
    have hj : j = 1 ∨ j = 2 ∨ j = 3 := by omega
    rcases hj with hj | hj | hj <;> subst hj
    · exact accept2_range this.1
    · exact cont_range this.2.1
    · exact cont_range this.2.2

/-- Bytes of a take agree with the original below the cut. -/
lemma byteAt_take {l : List Nat} {k j : Nat} (h : j < k) :
    byteAt (l.take k) j = byteAt l j := by
  unfold byteAt
  rw [List.getD_eq_getElem?_getD, List.getD_eq_getElem?_getD, List.getElem?_take_of_lt h]

/-- Bytes of an append agree with the left part below its length. -/
lemma byteAt_append_left {a b : List Nat} {j : Nat} (h : j < a.length) :
    byteAt (a ++ b) j = byteAt a j := by
  unfold byteAt
  rw [List.getD_eq_getElem?_getD, List.getD_eq_getElem?_getD, List.getElem?_append_left h]

/-- Bytes of a drop are bytes of the original shifted. -/
lemma byteAt_drop (l : List Nat) (k j : Nat) : byteAt (l.drop k) j = byteAt l (k + j) := by
  unfold byteAt
  rw [List.getD_eq_getElem?_getD, List.getD_eq_getElem?_getD, List.getElem?_drop]

/-- Decoding only looks at the first n bytes: any list long enough that
agrees on them decodes identically. -/
lemma decodeRune_congr {l m : List Nat} {n : Nat} (h : decodeRune l = some n)
    (hlen : n ≤ m.length) (hb : ∀ j, j < n → byteAt m j = byteAt l j) :
    decodeRune m = some n := by
  have hb0 := decodeRune_byte0 h
  have hbd := decodeRune_bounds h
  have e0 : byteAt m 0 = byteAt l 0 := hb 0 (by omega)
  have hn : n = 1 ∨ n = 2 ∨ n = 3 ∨ n = 4 := by omega
  rcases hn with hn | hn | hn | hn <;> subst hn
  · unfold decodeRune
    rw [e0]
    split_ifs <;> simp_all
  · have e1 : byteAt m 1 = byteAt l 1 := hb 1 (by omega)
    have h2 := decodeRune_two h
    unfold decodeRune
    rw [e0, e1]
    split_ifs <;> simp_all
  · have e1 : byteAt m 1 = byteAt l 1 := hb 1 (by omega)
    have e2 : byteAt m 2 = byteAt l 2 := hb 2 (by omega)
    have h3 := decodeRune_three h
    unfold decodeRune
    rw [e0, e1, e2]
    split_ifs <;> simp_all
  · have e1 : byteAt m 1 = byteAt l 1 := hb 1 (by omega)
    have e2 : byteAt m 2 = byteAt l 2 := hb 2 (by omega)
    have e3 : byteAt m 3 = byteAt l 3 := hb 3 (by omega)
    have h4 := decodeRune_four h
    unfold decodeRune
    rw [e0, e1, e2, e3]
    split_ifs <;> simp_all

/-- Decoding is unchanged by taking at least the decoded bytes. -/
lemma decodeRune_take {l : List Nat} {n k : Nat} (h : decodeRune l = some n)
    (hk : n ≤ k) : decodeRune (l.take k) = some n := by
  have hbd := decodeRune_bounds h
  refine decodeRune_congr h ?_ ?_
  · simp [List.length_take]
    omega
  · intro j hj
    exact byteAt_take (by omega)

/-- Decoding is unchanged by appending bytes on the right. -/
lemma decodeRune_append {l m : List Nat} {n : Nat} (h : decodeRune l = some n) :
    decodeRune (l ++ m) = some n := by
  have hbd := decodeRune_bounds h
  refine decodeRune_congr h ?_ ?_
  · simp
    omega
  · intro j hj
    exact byteAt_append_left (by omega)

/-- A continuation byte is not a rune start. -/
lemma cont_not_runeStart {b : Nat} (hb : cont b = true) : runeStart b = false := by
  have := cont_range hb
  simp [runeStart]
  omega

/-- A byte that can begin an encoded character is a rune start. -/
lemma runeLen1_runeStart {b : Nat} (hb : runeLen1 b ≠ 0) : runeStart b = true := by
  unfold runeLen1 at hb
  split_ifs at hb <;> simp [runeStart] <;> omega

/-- Fuel-driven parser for UTF-8 validity; with fuel at least the list
length it consumes the whole list (the fuel only makes the recursion
structural and kernel-computable). -/
def validUTF8Fuel : Nat → List Nat → Bool
  | 0, l => l.isEmpty
  | N + 1, l =>
    if l.length = 0 then true
    else
      match decodeRune l with
      | none => false
      | some n => validUTF8Fuel N (l.drop n)

/-- Valid UTF-8 byte lists: the whole list parses as a sequence of
complete encoded characters. -/
def validUTF8 (l : List Nat) : Bool := validUTF8Fuel l.length l

/-- Any sufficient fuel computes the same validity verdict. -/
lemma validUTF8Fuel_eq : ∀ (N M : Nat) (l : List Nat), l.length ≤ M → M ≤ N →
    validUTF8Fuel M l = validUTF8Fuel l.length l := by
  intro N
  induction N with
  | zero =>
    intro M l h1 h2
    have hM : M = 0 := by omega
    have hl : l.length = 0 := by omega
    subst hM
    rw [hl]
  | succ N ih =>
    intro M l h1 h2
    by_cases hM0 : M = 0
    · have hl : l.length = 0 := by omega
      subst hM0
      rw [hl]
    · obtain ⟨M2, rfl⟩ : ∃ M2, M = M2 + 1 := ⟨M - 1, by omega⟩
      by_cases hl0 : l.length = 0
      · have hle : l = [] := List.eq_nil_of_length_eq_zero hl0
        subst hle
        rfl
      · obtain ⟨L, hL⟩ : ∃ L, l.length = L + 1 := ⟨l.length - 1, by omega⟩
        rw [hL]
        show validUTF8Fuel (M2 + 1) l = validUTF8Fuel (L + 1) l
        unfold validUTF8Fuel
        rw [if_neg hl0, if_neg hl0]
        cases hd : decodeRune l with
        | none => rfl
        | some n =>
          have hb := decodeRune_bounds hd
          have hdl : (l.drop n).length = l.length - n := by simp
          show validUTF8Fuel M2 (l.drop n) = validUTF8Fuel L (l.drop n)
          rw [ih M2 (l.drop n) (by omega) (by omega), ih L (l.drop n) (by omega) (by omega)]

/-- The empty list is valid UTF-8. -/
lemma validUTF8_nil : validUTF8 [] = true := by rfl

/-- One successful step of the fuel-driven parser. -/
lemma validUTF8Fuel_succ (N : Nat) (l : List Nat) (hne : ¬ l.length = 0) {n : Nat}
    (hd : decodeRune l = some n) : validUTF8Fuel (N + 1) l = validUTF8Fuel N (l.drop n) := by
  show (if l.length = 0 then true
    else match decodeRune l with
      | none => false
      | some n => validUTF8Fuel N (l.drop n)) = validUTF8Fuel N (l.drop n)
  rw [if_neg hne, hd]

/-- One failing step of the fuel-driven parser. -/
lemma validUTF8Fuel_succ_none (N : Nat) (l : List Nat) (hne : ¬ l.length = 0)
    (hd : decodeRune l = none) : validUTF8Fuel (N + 1) l = false := by
  show (if l.length = 0 then true
    else match decodeRune l with
      | none => false
      | some n => validUTF8Fuel N (l.drop n)) = false
  rw [if_neg hne, hd]

/-- Unfolding of validUTF8 over the first decoded character. -/
lemma validUTF8_step {l : List Nat} {n : Nat} (hd : decodeRune l = some n) :
    validUTF8 l = validUTF8 (l.drop n) := by
  have hne : ¬ l.length = 0 := by
    intro h0
    unfold decodeRune at hd
    rw [if_pos h0] at hd
    cases hd
  have hb := decodeRune_bounds hd
  obtain ⟨L, hL⟩ : ∃ L, l.length = L + 1 := ⟨l.length - 1, by omega⟩
  have hdl : (l.drop n).length = l.length - n := by simp
  unfold validUTF8
  rw [hL, validUTF8Fuel_succ L l hne hd]
  exact validUTF8Fuel_eq L L (l.drop n) (by omega) le_rfl

/-- A non-empty list whose front does not decode is not valid UTF-8. -/
lemma validUTF8_none {l : List Nat} (hd : decodeRune l = none)
    (hne : ¬ l.length = 0) : validUTF8 l = false := by
  obtain ⟨L, hL⟩ : ∃ L, l.length = L + 1 := ⟨l.length - 1, by omega⟩
  unfold validUTF8
  rw [hL]
  exact validUTF8Fuel_succ_none L l hne hd

/-- A valid non-empty list decodes at its front. -/
lemma validUTF8_decode {l : List Nat} (hv : validUTF8 l = true)
    (hne : ¬ l.length = 0) : ∃ n, decodeRune l = some n ∧ validUTF8 (l.drop n) = true := by
  cases hd : decodeRune l with
  | none => rw [validUTF8_none hd hne] at hv; cases hv
  | some n =>
    refine ⟨n, rfl, ?_⟩
    rw [validUTF8_step hd] at hv
    exact hv

/-- One complete decoded character is valid UTF-8 on its own. -/
lemma validUTF8_take_decode {l : List Nat} {n : Nat} (hd : decodeRune l = some n) :
    validUTF8 (l.take n) = true := by
  have hbd := decodeRune_bounds hd
  have hd2 : decodeRune (l.take n) = some n := decodeRune_take hd (by omega)
  rw [validUTF8_step hd2]
  have : (l.take n).drop n = [] := by
    rw [List.drop_take]
    simp
  rw [this]
  exact validUTF8_nil

/-- Concatenation of valid UTF-8 lists is valid UTF-8. -/
lemma validUTF8_append : ∀ (N : Nat) (a b : List Nat), a.length ≤ N →
    validUTF8 a = true → validUTF8 b = true → validUTF8 (a ++ b) = true := by
  intro N
  induction N with
  | zero =>
    intro a b hN ha hb
    have : a = [] := List.eq_nil_of_length_eq_zero (by omega)
    subst this
    simpa using hb
  | succ N ih =>
    intro a b hN ha hb
    by_cases hae : a.length = 0
    · have : a = [] := List.eq_nil_of_length_eq_zero hae
      subst this
      simpa using hb
    · obtain ⟨n, hd, hrest⟩ := validUTF8_decode ha hae
      have hbd := decodeRune_bounds hd
      have hd2 : decodeRune (a ++ b) = some n := decodeRune_append hd
      rw [validUTF8_step hd2]
      rw [List.drop_append_of_le_length (by omega)]
      exact ih (a.drop n) b (by simp [List.length_drop]; omega) hrest hb

/-- Splitting a valid list at an offset that is the length or carries a
rune-start byte yields two valid halves. -/
lemma validUTF8_split : ∀ (N : Nat) (l : List Nat), l.length ≤ N →
    validUTF8 l = true → ∀ k, k ≤ l.length →
    (k = l.length ∨ runeStart (byteAt l k) = true) →
    validUTF8 (l.take k) = true ∧ validUTF8 (l.drop k) = true := by
  intro N
  induction N with
  | zero =>
    intro l hN hv k hk hor
    have : l = [] := List.eq_nil_of_length_eq_zero (by omega)
    subst this
    simp at hk
    subst hk
    simpa using validUTF8_nil
  | succ N ih =>
    intro l hN hv k hk hor
    by_cases hk0 : k = 0
    · subst hk0
      simpa [validUTF8_nil] using hv
    · have hle : ¬ l.length = 0 := by omega
      obtain ⟨n, hd, hrest⟩ := validUTF8_decode hv hle
      have hbd := decodeRune_bounds hd
      by_cases hkn : k < n
      · exfalso
        have hkl : k ≠ l.length := by omega
        rcases hor with hor | hor
        · exact hkl hor
        · have hcont : 128 ≤ byteAt l k ∧ byteAt l k ≤ 191 :=
            decodeRune_cont hd (by omega) hkn
          have : runeStart (byteAt l k) = false := by
            simp [runeStart]
            omega
          rw [this] at hor
          cases hor
      · have hkn2 : n ≤ k := by omega
        have hdl : (l.drop n).length = l.length - n := by simp
        have hbeq : byteAt (l.drop n) (k - n) = byteAt l k := by
          rw [byteAt_drop]
          congr 1
          omega
        have hcond : k - n = (l.drop n).length ∨ runeStart (byteAt (l.drop n) (k - n)) = true := by
          rcases hor with hor | hor
          · left
            rw [hdl]
            omega
          · right
            rw [hbeq]
            exact hor
        have hih := ih (l.drop n) (by omega) hrest (k - n) (by omega) hcond
        constructor
        · have htk : l.take k = l.take n ++ (l.drop n).take (k - n) := by
            have hkeq : k = n + (k - n) := by omega
            have h2 := List.take_add l n (k - n)
            rw [← hkeq] at h2
            exact h2
          rw [htk]
          refine validUTF8_append ((l.take n).length) _ _ le_rfl ?_ hih.1
          exact validUTF8_take_decode hd
        · have hdk : (l.drop n).drop (k - n) = l.drop k := by
            rw [List.drop_drop]
            congr 1
            omega
          rw [hdk] at hih
          exact hih.2

/-- Positivity of the DecodeRune size on non-empty input. -/
lemma decodeRuneSize_pos {l : List Nat} (h : ¬ l.length = 0) : 1 ≤ decodeRuneSize l := by
  unfold decodeRuneSize
  rw [if_neg h]
  cases hd : decodeRune l with
  | none => simp
  | some n =>
    have := decodeRune_bounds hd
    simp
    omega

/-- The DecodeRune size never exceeds the input length. -/
lemma decodeRuneSize_le {l : List Nat} (h : ¬ l.length = 0) : decodeRuneSize l ≤ l.length := by
  unfold decodeRuneSize
  rw [if_neg h]
  cases hd : decodeRune l with
  | none => simp; omega
  | some n =>
    have := decodeRune_bounds hd
    simp
    omega

/-- Embeds Go strings.LastIndex scanning candidate start offsets from
position k down to 0; some i is the largest start at or below k where
sub occurs in s. -/
def lastIndexFrom (s sub : List Nat) : Nat → Option Nat
  | 0 => if sub.isPrefixOf s then some 0 else none
  | k + 1 =>
    if sub.isPrefixOf (s.drop (k + 1)) then some (k + 1) else lastIndexFrom s sub k

/-- Embeds Go strings.LastIndex: the index of the last occurrence of sub
in s, none when sub does not occur (Go returns -1). -/
def lastIndex (s sub : List Nat) : Option Nat := lastIndexFrom s sub s.length

/-- A hit of the last-occurrence scan is a real occurrence at or below
the scan start. -/
lemma lastIndexFrom_some {s sub : List Nat} :
    ∀ {k i : Nat}, lastIndexFrom s sub k = some i →
    i ≤ k ∧ sub.isPrefixOf (s.drop i) = true := by
  intro k
  induction k with
  | zero =>
    intro i h
    unfold lastIndexFrom at h
    split_ifs at h with hp
    cases h
    simpa using hp
  | succ k ih =>
    intro i h
    unfold lastIndexFrom at h
    split_ifs at h with hp
    · cases h
      exact ⟨le_rfl, hp⟩
    · have := ih h
      exact ⟨by omega, this.2⟩

/-- A hit of lastIndex occurs in s no further than the length. -/
lemma lastIndex_some {s sub : List Nat} {i : Nat} (h : lastIndex s sub = some i) :
    i ≤ s.length ∧ sub.isPrefixOf (s.drop i) = true :=
  lastIndexFrom_some h

/-- The 100-byte lookback length of findSplitPoint in src/main.go
(lookBack is 100 clamped to the length of s). -/
def lookBack (s : List Nat) : Nat := if s.length < 100 then s.length else 100

/-- The strong sentence terminators of findSplitPoint, in source order:
newline, 。, ！, ？, period, exclamation mark, question mark, each as its
UTF-8 byte sequence. -/
def strongPuncs : List (List Nat) :=
  [[10], [227, 128, 130], [239, 188, 129], [239, 188, 159], [46], [33], [63]]

/-- The clause separators of findSplitPoint, in source order: ，, ；,
comma, semicolon, each as its UTF-8 byte sequence. -/
def weakPuncs : List (List Nat) :=
  [[239, 188, 140], [239, 188, 155], [44], [59]]

/-- One iteration of the punctuation loops in findSplitPoint: look up
the last occurrence of punc in sub and adopt the byte offset just after
it when it is within 150 bytes of the end of s or no candidate exists. -/
def puncStep (slen lb : Nat) (sub : List Nat) (best : Option Nat) (punc : List Nat) :
    Option Nat :=
  match lastIndex sub punc with
  | none => best
  | some idx =>
    if (slen : Int) - (slen - lb + idx + punc.length) < 150 ∨ best = none then
      some (slen - lb + idx + punc.length)
    else best

/-- Embeds findSplitPoint of src/main.go: scan the last lookBack bytes
of s for the punctuation marks, strong terminators first and clause
separators only when no strong terminator was found, and return the
chosen byte offset, or the length of s when nothing is found (Go
returns -1 and the caller substitutes len(s)). -/
def findSplitPoint (s : List Nat) : Nat :=
  (if strongPuncs.foldl (puncStep s.length (lookBack s) (s.drop (s.length - lookBack s)))
      none = none then
    weakPuncs.foldl (puncStep s.length (lookBack s) (s.drop (s.length - lookBack s))) none
  else
    strongPuncs.foldl (puncStep s.length (lookBack s) (s.drop (s.length - lookBack s)))
      none).getD s.length

/-- Embeds the backward character-boundary adjustment loop of splitText
(for endIndex > startIndex && !utf8.RuneStart(tempBytes[endIndex]) {
endIndex-- }). -/
def backAdjust (text : List Nat) (start : Nat) : Nat → Nat
  | 0 => 0
  | e + 1 =>
    if start < e + 1 ∧ runeStart (byteAt text (e + 1)) = false then backAdjust text start e
    else e + 1

/-- Embeds the helper max of src/main.go. -/
def maxInt (a b : Nat) : Nat := if a > b then a else b

/-- The end offset of splitText before punctuation refinement: budget
cut, clamped to the text length, moved back to a rune start, and forced
forward over one character when the backward move collapsed the
fragment. -/
def provisionalEnd (text : List Nat) (maxSize start : Nat) : Nat :=
  if text.length ≤ start + maxSize then text.length
  else
    if backAdjust text start (start + maxSize) ≤ start then
      if text.length < start + maxInt (decodeRuneSize (text.drop start)) 1 then text.length
      else start + maxInt (decodeRuneSize (text.drop start)) 1
    else backAdjust text start (start + maxSize)

/-- The end offset of one splitText iteration including the punctuation
refinement of lines 120 to 128 of src/main.go. -/
def computeEnd (text : List Nat) (maxSize start : Nat) : Nat :=
  if text.length ≤ start + maxSize then text.length
  else
    if 0 < findSplitPoint ((text.drop start).take (provisionalEnd text maxSize start - start)) ∧
        findSplitPoint ((text.drop start).take (provisionalEnd text maxSize start - start)) <
          ((text.drop start).take (provisionalEnd text maxSize start - start)).length then
      if ((text.drop start).take (provisionalEnd text maxSize start - start)).length / 2 <
          findSplitPoint ((text.drop start).take (provisionalEnd text maxSize start - start)) ∨
          ((text.drop start).take (provisionalEnd text maxSize start - start)).length < 100 then
        start + findSplitPoint ((text.drop start).take (provisionalEnd text maxSize start - start))
      else provisionalEnd text maxSize start
    else provisionalEnd text maxSize start

/-- The backward adjustment never goes above its starting offset. -/
lemma backAdjust_le (text : List Nat) (start : Nat) : ∀ e, backAdjust text start e ≤ e := by
  intro e
  induction e with
  | zero => simp [backAdjust]
  | succ e ih =>
    unfold backAdjust
    split_ifs
    · omega
    · omega

/-- The backward adjustment never goes below start. -/
lemma backAdjust_ge (text : List Nat) (start : Nat) :
    ∀ e, start ≤ e → start ≤ backAdjust text start e := by
  intro e
  induction e with
  | zero => intro h; simpa [backAdjust] using h
  | succ e ih =>
    intro h
    unfold backAdjust
    split_ifs with hc
    · exact ih (by omega)
    · omega

/-- When the backward adjustment stops above start it stands on a rune
start. -/
lemma backAdjust_stop (text : List Nat) (start : Nat) :
    ∀ e, start < backAdjust text start e →
    runeStart (byteAt text (backAdjust text start e)) = true := by
  intro e
  induction e with
  | zero => intro h; simp [backAdjust] at h
  | succ e ih =>
    intro h
    unfold backAdjust at h ⊢
    split_ifs at h ⊢ with hc
    · exact ih h
    · rcases Classical.not_and_iff_or_not_not.mp hc with hc | hc
      · omega
      · simpa using hc

/-- The provisional end stays within the text. -/
lemma provisionalEnd_le (text : List Nat) (maxSize start : Nat) (h : start < text.length) :
    provisionalEnd text maxSize start ≤ text.length := by
  unfold provisionalEnd
  split_ifs with h1 h2 h3
  · omega
  · omega
  · omega
  · have := backAdjust_le text start (start + maxSize)
    omega

/-- The provisional end strictly advances past start. -/
lemma provisionalEnd_gt (text : List Nat) (maxSize start : Nat) (h : start < text.length) :
    start < provisionalEnd text maxSize start := by
  unfold provisionalEnd
  split_ifs with h1 h2 h3
  · omega
  · omega
  · have hds : 1 ≤ decodeRuneSize (text.drop start) := by
      refine decodeRuneSize_pos ?_
      simp
      omega
    unfold maxInt
    split_ifs <;> omega
  · omega

/-- One iteration of splitText strictly advances the cursor: the chosen
end offset is strictly greater than the start offset. -/
lemma computeEnd_gt (text : List Nat) (maxSize start : Nat) (h : start < text.length) :
    start < computeEnd text maxSize start := by
  unfold computeEnd
  have hpe := provisionalEnd_gt text maxSize start h
  split_ifs with h1 h2 h3
  · omega
  · omega
  · omega
  · omega

/-- The chosen end offset stays within the text. -/
lemma computeEnd_le (text : List Nat) (maxSize start : Nat) (h : start < text.length) :
    computeEnd text maxSize start ≤ text.length := by
  unfold computeEnd
  have hpe := provisionalEnd_le text maxSize start h
  have hpg := provisionalEnd_gt text maxSize start h
  have hlen : ((text.drop start).take (provisionalEnd text maxSize start - start)).length ≤
      text.length - start := by
    rw [List.length_take, List.length_drop]
    omega
  split_ifs <;> omega

/-- The fragment loop of splitText from a given cursor: emit the slice
up to the computed end and continue from there. -/
def splitTextAux (text : List Nat) (maxSize : Nat) (start : Nat) : List (List Nat) :=
  if h : start < text.length then
    ((text.drop start).take (computeEnd text maxSize start - start)) ::
      splitTextAux text maxSize (computeEnd text maxSize start)
  else []
termination_by text.length - start
decreasing_by
  have := computeEnd_gt text maxSize start h
  omega

/-- Embeds splitText of src/main.go on byte lists. -/
def splitText (text : List Nat) (maxSize : Nat) : List (List Nat) :=
  splitTextAux text maxSize 0

/-- The fragments from any cursor concatenate to the rest of the text. -/
lemma splitTextAux_flatten : ∀ (N : Nat) (text : List Nat) (maxSize start : Nat),
    text.length - start ≤ N →
    (splitTextAux text maxSize start).flatten = text.drop start := by
  intro N
  induction N with
  | zero =>
    intro text maxSize start hN
    rw [splitTextAux, dif_neg (show ¬ start < text.length by omega)]
    rw [List.drop_eq_nil_of_le (show text.length ≤ start by omega)]
    rfl
  | succ N ih =>
    intro text maxSize start hN
    by_cases hs : start < text.length
    · have hgt := computeEnd_gt text maxSize start hs
      rw [splitTextAux, dif_pos hs]
      rw [List.flatten_cons]
      rw [ih text maxSize (computeEnd text maxSize start) (by omega)]
      have hdd : text.drop (computeEnd text maxSize start) =
          (text.drop start).drop (computeEnd text maxSize start - start) := by
        rw [List.drop_drop]
        congr 1
        omega
      rw [hdd, List.take_append_drop]
    · rw [splitTextAux, dif_neg hs]
      rw [List.drop_eq_nil_of_le (show text.length ≤ start by omega)]
      rfl

/-- C1. Round-trip completeness: for every input text and every maxSize
at least 1, the fragments returned by splitText concatenate, in order,
back to the original input byte for byte. -/
theorem splitText_round_trip (text : List Nat) (maxSize : Nat) (h : 1 ≤ maxSize) :
    (splitText text maxSize).flatten = text := by
  unfold splitText
  rw [splitTextAux_flatten text.length text maxSize 0 (by omega)]
  simp

/-- Witness for C1 at a concrete input. -/
theorem splitText_round_trip_witness :
    1 ≤ 2 ∧ (splitText [104, 105, 46, 104, 105] 2).flatten = [104, 105, 46, 104, 105] :=
  ⟨by decide, splitText_round_trip [104, 105, 46, 104, 105] 2 (by decide)⟩

/-- C7. Totality: splitText is a total function (its recursion is
well-founded because every iteration strictly advances the cursor), the
empty input yields the empty fragment sequence, and each loop iteration
from any cursor inside the text strictly advances it. -/
theorem splitText_total (text : List Nat) (maxSize : Nat) (h : 1 ≤ maxSize) :
    (∀ start, start < text.length → start < computeEnd text maxSize start) ∧
      splitText ([] : List Nat) maxSize = [] := by
  constructor
  · intro start hs
    exact computeEnd_gt text maxSize start hs
  · unfold splitText
    rw [splitTextAux, dif_neg (by simp)]

/-- Witness for C7 at a concrete input. -/
theorem splitText_total_witness :
    1 ≤ 1 ∧ ((∀ start, start < ([97, 98] : List Nat).length →
        start < computeEnd [97, 98] 1 start) ∧ splitText ([] : List Nat) 1 = []) :=
  ⟨by decide, splitText_total [97, 98] 1 (by decide)⟩

/-- Every emitted fragment is non-empty. -/
lemma splitTextAux_nonempty : ∀ (N : Nat) (text : List Nat) (maxSize start : Nat),
    text.length - start ≤ N →
    ∀ F ∈ splitTextAux text maxSize start, 1 ≤ F.length := by
  intro N
  induction N with
  | zero =>
    intro text maxSize start hN F hF
    rw [splitTextAux, dif_neg (show ¬ start < text.length by omega)] at hF
    cases hF
  | succ N ih =>
    intro text maxSize start hN F hF
    by_cases hs : start < text.length
    · have hgt := computeEnd_gt text maxSize start hs
      rw [splitTextAux, dif_pos hs] at hF
      rcases List.mem_cons.mp hF with hF | hF
      · subst hF
        rw [List.length_take, List.length_drop]
        omega
      · exact ih text maxSize (computeEnd text maxSize start) (by omega) F hF
    · rw [splitTextAux, dif_neg hs] at hF
      cases hF

/-- C9. Non-emptiness: for non-empty input and maxSize at least 1,
every fragment returned by splitText has byte length at least 1. -/
theorem splitText_fragments_nonempty (text : List Nat) (maxSize : Nat)
    (h1 : text ≠ []) (h2 : 1 ≤ maxSize) :
    ∀ F ∈ splitText text maxSize, 1 ≤ F.length := by
  intro F hF
  exact splitTextAux_nonempty text.length text maxSize 0 (by omega) F hF

/-- Witness for C9 at a concrete input. -/
theorem splitText_fragments_nonempty_witness :
    ([97, 46, 98] : List Nat) ≠ [] ∧ 1 ≤ 2 ∧
      ∀ F ∈ splitText [97, 46, 98] 2, 1 ≤ F.length :=
  ⟨by decide, by decide, splitText_fragments_nonempty [97, 46, 98] 2 (by decide) (by decide)⟩

/-- C10. When the remaining text fits in the budget, the emitted
fragment runs to the end of the text, the punctuation search is skipped
(the end offset is the text length, not a punctuation split), and the
loop stops after this one fragment. -/
theorem splitText_last_fragment (text : List Nat) (maxSize start : Nat)
    (h1 : start < text.length) (h2 : text.length ≤ start + maxSize) :
    computeEnd text maxSize start = text.length ∧
      splitTextAux text maxSize start = [text.drop start] := by
  have hce : computeEnd text maxSize start = text.length := by
    unfold computeEnd
    rw [if_pos h2]
  refine ⟨hce, ?_⟩
  rw [splitTextAux, dif_pos h1, hce]
  have hlen : (text.drop start).length = text.length - start := by simp
  rw [← hlen, List.take_length]
  rw [splitTextAux, dif_neg (by omega)]

/-- Witness for C10 at a concrete input. -/
theorem splitText_last_fragment_witness :
    1 < ([97, 46, 98] : List Nat).length ∧ ([97, 46, 98] : List Nat).length ≤ 1 + 5 ∧
      computeEnd [97, 46, 98] 5 1 = ([97, 46, 98] : List Nat).length ∧
      splitTextAux [97, 46, 98] 5 1 = [([97, 46, 98] : List Nat).drop 1] :=
  ⟨by decide, by decide, splitText_last_fragment [97, 46, 98] 5 1 (by decide) (by decide)⟩

/-- The provisional chunk has length exactly the provisional end minus
the start. -/
lemma chunk_length (text : List Nat) (maxSize start : Nat) (h : start < text.length) :
    ((text.drop start).take (provisionalEnd text maxSize start - start)).length =
      provisionalEnd text maxSize start - start := by
  have h1 := provisionalEnd_le text maxSize start h
  rw [List.length_take, List.length_drop]
  omega

/-- C6. Acceptance rule: with the budget not reaching the end of the
text and a punctuation split point strictly inside the provisional
chunk, the split point replaces the provisional end exactly when it lies
in the back half of the chunk or the chunk is shorter than 100 bytes. -/
theorem computeEnd_acceptance (text : List Nat) (maxSize start : Nat)
    (h : start + maxSize < text.length)
    (hsp1 : 0 < findSplitPoint ((text.drop start).take (provisionalEnd text maxSize start - start)))
    (hsp2 : findSplitPoint ((text.drop start).take (provisionalEnd text maxSize start - start)) <
      ((text.drop start).take (provisionalEnd text maxSize start - start)).length) :
    computeEnd text maxSize start =
        start + findSplitPoint ((text.drop start).take (provisionalEnd text maxSize start - start)) ↔
      ((text.drop start).take (provisionalEnd text maxSize start - start)).length / 2 <
          findSplitPoint ((text.drop start).take (provisionalEnd text maxSize start - start)) ∨
        ((text.drop start).take (provisionalEnd text maxSize start - start)).length < 100 := by
  have hs : start < text.length := by omega
  have hcl := chunk_length text maxSize start hs
  have hpg := provisionalEnd_gt text maxSize start hs
  unfold computeEnd
  rw [if_neg (by omega)]
  rw [if_pos ⟨hsp1, hsp2⟩]
  split_ifs with hB
  · exact iff_of_true rfl hB
  · exact iff_of_false (by omega) hB

/-- Witness for C6 at a concrete input. -/
theorem computeEnd_acceptance_witness :
    0 + 4 < ([97, 97, 46, 97, 120] : List Nat).length ∧
      0 < findSplitPoint ((([97, 97, 46, 97, 120] : List Nat).drop 0).take
        (provisionalEnd [97, 97, 46, 97, 120] 4 0 - 0)) ∧
      (computeEnd [97, 97, 46, 97, 120] 4 0 =
          0 + findSplitPoint ((([97, 97, 46, 97, 120] : List Nat).drop 0).take
            (provisionalEnd [97, 97, 46, 97, 120] 4 0 - 0)) ↔
        ((([97, 97, 46, 97, 120] : List Nat).drop 0).take
            (provisionalEnd [97, 97, 46, 97, 120] 4 0 - 0)).length / 2 <
          findSplitPoint ((([97, 97, 46, 97, 120] : List Nat).drop 0).take
            (provisionalEnd [97, 97, 46, 97, 120] 4 0 - 0)) ∨
        ((([97, 97, 46, 97, 120] : List Nat).drop 0).take
            (provisionalEnd [97, 97, 46, 97, 120] 4 0 - 0)).length < 100) :=
  ⟨by decide, by decide,
    computeEnd_acceptance [97, 97, 46, 97, 120] 4 0 (by decide) (by decide) (by decide)⟩

/-- The lookback never exceeds the length of s nor 100. -/
lemma lookBack_le (s : List Nat) : lookBack s ≤ s.length ∧ lookBack s ≤ 100 := by
  unfold lookBack
  split_ifs <;> omega

/-- Reduction of puncStep when the punctuation does not occur. -/
lemma puncStep_none {slen lb : Nat} {sub punc : List Nat} (best : Option Nat)
    (h : lastIndex sub punc = none) : puncStep slen lb sub best punc = best := by
  unfold puncStep
  rw [h]

/-- Reduction of puncStep when the punctuation occurs. -/
lemma puncStep_some {slen lb : Nat} {sub punc : List Nat} (best : Option Nat) {idx : Nat}
    (h : lastIndex sub punc = some idx) :
    puncStep slen lb sub best punc =
      if (slen : Int) - (slen - lb + idx + punc.length) < 150 ∨ best = none then
        some (slen - lb + idx + punc.length)
      else best := by
  unfold puncStep
  rw [h]

/-- The values any punctuation iteration can store as a candidate: the
byte offset just after the last occurrence of one of the punctuation
marks inside the lookback window. -/
def puncCand (slen lb : Nat) (sub : List Nat) (v : Nat) : Prop :=
  ∃ p idx, (p ∈ strongPuncs ∨ p ∈ weakPuncs) ∧ lastIndex sub p = some idx ∧
    v = slen - lb + idx + p.length

/-- Folding puncStep over punctuation marks only produces candidate
offsets of the above shape. -/
lemma foldl_puncStep_cand (slen lb : Nat) (sub : List Nat) :
    ∀ (ps : List (List Nat)) (acc : Option Nat),
    (∀ p, p ∈ ps → p ∈ strongPuncs ∨ p ∈ weakPuncs) →
    (∀ v, acc = some v → puncCand slen lb sub v) →
    ∀ v, ps.foldl (puncStep slen lb sub) acc = some v → puncCand slen lb sub v := by
  intro ps
  induction ps with
  | nil =>
    intro acc hps hacc v hv
    exact hacc v (by simpa using hv)
  | cons p ps ih =>
    intro acc hps hacc v hv
    rw [List.foldl_cons] at hv
    refine ih (puncStep slen lb sub acc p)
      (fun q hq => hps q (List.mem_cons_of_mem p hq)) ?_ v hv
    intro w hw
    cases hli : lastIndex sub p with
    | none =>
      rw [puncStep_none acc hli] at hw
      exact hacc w hw
    | some idx =>
      rw [puncStep_some acc hli] at hw
      split_ifs at hw with hc
      · cases hw
        exact ⟨p, idx, hps p (List.mem_cons_self p ps), hli, rfl⟩
      · exact hacc w hw

/-- The split point is either the whole length (no punctuation found) or
a candidate offset after a punctuation occurrence in the window. -/
lemma findSplitPoint_cases (s : List Nat) :
    findSplitPoint s = s.length ∨
      puncCand s.length (lookBack s) (s.drop (s.length - lookBack s)) (findSplitPoint s) := by
  unfold findSplitPoint
  cases h1 : strongPuncs.foldl
      (puncStep s.length (lookBack s) (s.drop (s.length - lookBack s))) none with
  | some v =>
    rw [if_neg (by simp)]
    right
    simp only [Option.getD_some]
    exact foldl_puncStep_cand s.length (lookBack s) (s.drop (s.length - lookBack s))
      strongPuncs none (fun p hp => Or.inl hp) (fun w hw => by cases hw) v h1
  | none =>
    rw [if_pos rfl]
    cases h2 : weakPuncs.foldl
        (puncStep s.length (lookBack s) (s.drop (s.length - lookBack s))) none with
    | none => left; rfl
    | some v =>
      right
      simp only [Option.getD_some]
      exact foldl_puncStep_cand s.length (lookBack s) (s.drop (s.length - lookBack s))
        weakPuncs none (fun p hp => Or.inr hp) (fun w hw => by cases hw) v h2

/-- Any split point other than the whole length is the byte offset just
after an occurrence of one of the eleven punctuation marks in s. -/
lemma findSplitPoint_shape (s : List Nat) :
    findSplitPoint s = s.length ∨
      ∃ p j, (p ∈ strongPuncs ∨ p ∈ weakPuncs) ∧ p <+: s.drop j ∧
        findSplitPoint s = j + p.length ∧ j + p.length ≤ s.length := by
  rcases findSplitPoint_cases s with h | ⟨p, idx, hp, hli, hv⟩
  · left
    exact h
  · right
    have hlb := lookBack_le s
    have hls := lastIndex_some hli
    have hsublen : (s.drop (s.length - lookBack s)).length = lookBack s := by
      rw [List.length_drop]
      omega
    have hpre : p <+: (s.drop (s.length - lookBack s)).drop idx :=
      List.isPrefixOf_iff_prefix.mp hls.2
    rw [List.drop_drop] at hpre
    refine ⟨p, s.length - lookBack s + idx, hp, hpre, hv, ?_⟩
    have hplen := hpre.length_le
    rw [List.length_drop] at hplen
    have hidx : idx ≤ lookBack s := by omega
    omega

/-- C4 (amended). Within a tier the punctuation marks are tried in a
fixed source order and the proximity test is always satisfied, so each
mark that occurs in the window unconditionally overwrites the previous
candidate with the offset after its own rightmost occurrence; the
surviving split point is that of the mark listed last among those
present, not the rightmost occurrence across marks. -/
theorem puncStep_overwrites (s p : List Nat) (idx : Nat) (best : Option Nat)
    (hp : p ∈ strongPuncs ∨ p ∈ weakPuncs)
    (hidx : lastIndex (s.drop (s.length - lookBack s)) p = some idx) :
    puncStep s.length (lookBack s) (s.drop (s.length - lookBack s)) best p =
      some (s.length - lookBack s + idx + p.length) := by
  have hlb := lookBack_le s
  rw [puncStep_some best hidx]
  have hcond : (s.length : Int) - (s.length - lookBack s + idx + p.length) < 150 ∨
      best = none := by
    left
    push_cast
    omega
  rw [if_pos hcond]

/-- Witness for C4 (amended) at a concrete input: in "?a.a" the mark "."
occurs last at index 2 and overwrites an existing candidate. -/
theorem puncStep_overwrites_witness :
    (([46] ∈ strongPuncs ∨ [46] ∈ weakPuncs) ∧
      lastIndex (([63, 97, 46, 97] : List Nat).drop
        (([63, 97, 46, 97] : List Nat).length - lookBack [63, 97, 46, 97])) [46] = some 2) ∧
      puncStep ([63, 97, 46, 97] : List Nat).length (lookBack [63, 97, 46, 97])
        (([63, 97, 46, 97] : List Nat).drop
          (([63, 97, 46, 97] : List Nat).length - lookBack [63, 97, 46, 97]))
        (some 1) [46] =
        some (([63, 97, 46, 97] : List Nat).length - lookBack [63, 97, 46, 97] + 2 +
          ([46] : List Nat).length) :=
  ⟨⟨by decide, by decide⟩,
    puncStep_overwrites [63, 97, 46, 97] [46] 2 (some 1) (by decide) (by decide)⟩

/-- C4 counterexample: in the input "?a.a" (bytes 63, 97, 46, 97) the
strong terminators "?" and "." both occur in the window; the rightmost
occurrence of a mark of this tier is the "." whose split point would be
3, yet findSplitPoint returns 1, the offset after the earlier "?",
because "?" is listed after "." in the iteration order and its test
always passes; so the tie-break is not the rightmost occurrence. -/
theorem findSplitPoint_not_rightmost :
    findSplitPoint [63, 97, 46, 97] = 1 ∧
      lastIndex [63, 97, 46, 97] [46] = some 2 ∧
      lastIndex [63, 97, 46, 97] [63] = some 0 ∧
      [46] ∈ strongPuncs ∧ [63] ∈ strongPuncs ∧
      (1 : Nat) ≠ 2 + ([46] : List Nat).length := by decide

/-- The number of encoded characters in a byte list, counted as Go
utf8.RuneCountInString counts (one per decoded character, one per
invalid or truncated byte); the fuel argument only makes the recursion
structural. -/
def runeCountFuel : Nat → List Nat → Nat
  | 0, _ => 0
  | N + 1, l => if l.length = 0 then 0 else 1 + runeCountFuel N (l.drop (decodeRuneSize l))

/-- The number of encoded characters in a byte list. -/
def runeCount (l : List Nat) : Nat := runeCountFuel l.length l

/-- C5 counterexample: the input consisting of "." followed by 34
three-byte characters has 35 characters, so its strong terminator "."
lies within the last 100 characters; still findSplitPoint reports no
punctuation at all (it returns the length), because its window is the
last 100 BYTES and the 103-byte input leaves the "." outside of it. -/
theorem findSplitPoint_misses_terminator_in_window :
    findSplitPoint (46 :: (List.replicate 34 [227, 129, 130]).flatten) =
        (46 :: (List.replicate 34 [227, 129, 130]).flatten).length ∧
      (46 :: (List.replicate 34 [227, 129, 130]).flatten).length = 103 ∧
      runeCount (46 :: (List.replicate 34 [227, 129, 130]).flatten) = 35 ∧
      lastIndex (46 :: (List.replicate 34 [227, 129, 130]).flatten) [46] = some 0 ∧
      [46] ∈ strongPuncs := by decide

/-- C5 (amended). The punctuation search inspects only the last 100
bytes (not characters) of the provisional fragment: its result depends
only on the length of the fragment and on those last 100 bytes. -/
theorem findSplitPoint_window_bytes (s t : List Nat) (hlen : s.length = t.length)
    (htail : s.drop (s.length - 100) = t.drop (t.length - 100)) :
    findSplitPoint s = findSplitPoint t := by
  have hlb : lookBack s = lookBack t := by
    unfold lookBack
    rw [hlen]
  have hsub : s.drop (s.length - lookBack s) = t.drop (t.length - lookBack t) := by
    have h1 : s.length - lookBack s = s.length - 100 := by
      unfold lookBack
      split_ifs <;> omega
    have h2 : t.length - lookBack t = t.length - 100 := by
      unfold lookBack
      split_ifs <;> omega
    rw [h1, h2, htail]
  unfold findSplitPoint
  rw [hsub, hlen, hlb]

/-- Witness for C5 (amended) at concrete inputs of 101 bytes agreeing on
their last 100 bytes. -/
theorem findSplitPoint_window_bytes_witness :
    ((5 :: (List.replicate 99 97 ++ [46])).length =
        (7 :: (List.replicate 99 97 ++ [46])).length ∧
      (5 :: (List.replicate 99 97 ++ [46])).drop
          ((5 :: (List.replicate 99 97 ++ [46])).length - 100) =
        (7 :: (List.replicate 99 97 ++ [46])).drop
          ((7 :: (List.replicate 99 97 ++ [46])).length - 100)) ∧
      findSplitPoint (5 :: (List.replicate 99 97 ++ [46])) =
        findSplitPoint (7 :: (List.replicate 99 97 ++ [46])) :=
  ⟨⟨by decide, by decide⟩,
    findSplitPoint_window_bytes (5 :: (List.replicate 99 97 ++ [46]))
      (7 :: (List.replicate 99 97 ++ [46])) (by decide) (by decide)⟩

/-- Embeds the Config structure of src/main.go (lines 41 to 49). -/
structure Config where
  languageCode : String
  voiceName : String
  inputFilename : String
  outputFilename : String
  maxInputBytes : Int
  speakingRate : Float
  pitch : Float

/-- Embeds the byte budget that main passes to splitText (src/main.go
line 173): the literal 200; the loaded configuration, including its
MaxInputBytes field, is not consulted there. -/
def mainSegmentBudget (cfg : Config) : Int := 200

/-- C8 is refuted by the code: main calls splitText with the constant
200, not with the configured MaxInputBytes; a configuration with
maxInputBytes 500 still yields the budget 200. -/
theorem mainSegmentBudget_ignores_config :
    mainSegmentBudget
        { languageCode := "cmn-TW", voiceName := "cmn-TW-Wavenet-A",
          inputFilename := "input.txt", outputFilename := "output.mp3",
          maxInputBytes := 500, speakingRate := 1.0, pitch := 0.0 } = 200 ∧
      (500 : Int) ≠ 200 := ⟨rfl, by decide⟩

/-- A prefix of a dropped take is a prefix of the drop itself. -/
lemma prefix_drop_take {p s : List Nat} {m j : Nat} (h : p <+: (s.take m).drop j) :
    p <+: s.drop j := by
  rw [List.drop_take] at h
  exact h.trans (List.take_prefix _ _)

/-- Bytes under a prefix agree with the prefix. -/
lemma prefix_byteAt {p l : List Nat} (h : p <+: l) {j : Nat} (hj : j < p.length) :
    byteAt l j = byteAt p j := by
  obtain ⟨t, rfl⟩ := h
  exact byteAt_append_left hj

/-- Every punctuation mark of the two tiers is a complete encoded
character: its lead byte announces exactly its length, and the lead byte
is never a continuation byte. -/
lemma punct_lead {p : List Nat} (hp : p ∈ strongPuncs ∨ p ∈ weakPuncs) :
    runeLen1 (byteAt p 0) = p.length ∧ 1 ≤ p.length ∧ runeStart (byteAt p 0) = true ∧
      (byteAt p 0 < 128 ∨ 192 ≤ byteAt p 0) := by
  rcases hp with hp | hp <;> fin_cases hp <;> decide

/-- Splitting valid UTF-8 right after an occurrence of a punctuation
mark yields two valid halves. -/
lemma validUTF8_punct_split {l p : List Nat} {j : Nat} (hv : validUTF8 l = true)
    (hp : p ∈ strongPuncs ∨ p ∈ weakPuncs) (hpre : p <+: l.drop j)
    (hjp : j + p.length ≤ l.length) :
    validUTF8 (l.take (j + p.length)) = true ∧ validUTF8 (l.drop (j + p.length)) = true := by
  have hl := punct_lead hp
  have hjl : j < l.length := by omega
  have hb : byteAt l j = byteAt p 0 := by
    have hx := prefix_byteAt hpre (show 0 < p.length by omega)
    rw [byteAt_drop] at hx
    simpa using hx
  have hsplit := validUTF8_split l.length l le_rfl hv j (by omega)
    (Or.inr (by rw [hb]; exact hl.2.2.1))
  have hne : ¬ (l.drop j).length = 0 := by
    rw [List.length_drop]
    omega
  obtain ⟨n, hd, hrest⟩ := validUTF8_decode hsplit.2 hne
  have hn : n = p.length := by
    have hx := decodeRune_byte0 hd
    rw [byteAt_drop] at hx
    simp only [Nat.add_zero] at hx
    rw [hb, hl.1] at hx
    omega
  subst hn
  constructor
  · rw [List.take_add]
    exact validUTF8_append (l.take j).length _ _ le_rfl hsplit.1 (validUTF8_take_decode hd)
  · have h2 : l.drop (j + p.length) = (l.drop j).drop p.length := by
      rw [List.drop_drop]
    rw [h2]
    exact hrest

/-- On a fragment that is exactly one decoded character the punctuation
search never proposes an interior offset: it returns the length. -/
lemma findSplitPoint_single_rune {l : List Nat} {n : Nat} (hd : decodeRune l = some n)
    (hl : l.length = n) : findSplitPoint l = l.length := by
  rcases findSplitPoint_shape l with h | ⟨p, j, hp, hpre, heq, hle⟩
  · exact h
  · have hb := decodeRune_bounds hd
    have hlead := punct_lead hp
    have hjl : j < l.length := by omega
    have hbj : byteAt l j = byteAt p 0 := by
      have hx := prefix_byteAt hpre (show 0 < p.length by omega)
      rw [byteAt_drop] at hx
      simpa using hx
    by_cases hj0 : j = 0
    · subst hj0
      have hx := decodeRune_byte0 hd
      rw [hbj, hlead.1] at hx
      rw [heq]
      omega
    · exfalso
      have hjn : j < n := by omega
      have hcont := decodeRune_cont hd (by omega) hjn
      rcases hlead.2.2.2 with hlt | hge <;> omega

/-- A DecodeRune size of at least 2 comes from a successful decode. -/
lemma decodeRuneSize_decode {l : List Nat} (h2 : 2 ≤ decodeRuneSize l) :
    decodeRune l = some (decodeRuneSize l) := by
  unfold decodeRuneSize at h2 ⊢
  split_ifs at h2 ⊢ with h0
  · omega
  · cases hd : decodeRune l with
    | none => rw [hd] at h2; simp at h2
    | some n => simp

/-- The DecodeRune size of a decodable front is the decoded size. -/
lemma decodeRuneSize_of_decode {l : List Nat} {n : Nat} (hd : decodeRune l = some n) :
    decodeRuneSize l = n := by
  have hne : ¬ l.length = 0 := by
    intro h0
    unfold decodeRune at hd
    rw [if_pos h0] at hd
    cases hd
  unfold decodeRuneSize
  rw [if_neg hne, hd]
  rfl

/-- Dissection of the provisional end when the budget falls short: it is
either a backward-adjusted offset on a rune start within the budget, or
the forced advance of exactly one DecodeRune size. -/
lemma provisionalEnd_cases (text : List Nat) (maxSize start : Nat)
    (h : start + maxSize < text.length) :
    (start < provisionalEnd text maxSize start ∧
      provisionalEnd text maxSize start ≤ start + maxSize ∧
      runeStart (byteAt text (provisionalEnd text maxSize start)) = true) ∨
    (provisionalEnd text maxSize start = start + decodeRuneSize (text.drop start) ∧
      1 ≤ decodeRuneSize (text.drop start)) := by
  have hne : ¬ (text.drop start).length = 0 := by
    rw [List.length_drop]
    omega
  have hrs1 := decodeRuneSize_pos hne
  have hrsle := decodeRuneSize_le hne
  rw [List.length_drop] at hrsle
  unfold provisionalEnd
  rw [if_neg (show ¬ text.length ≤ start + maxSize by omega)]
  split_ifs with hba hcl
  · exfalso
    have hmx : maxInt (decodeRuneSize (text.drop start)) 1 =
        decodeRuneSize (text.drop start) := by
      unfold maxInt
      split_ifs <;> omega
    rw [hmx] at hcl
    omega
  · right
    have hmx : maxInt (decodeRuneSize (text.drop start)) 1 =
        decodeRuneSize (text.drop start) := by
      unfold maxInt
      split_ifs <;> omega
    rw [hmx]
    exact ⟨rfl, hrs1⟩
  · left
    have hle := backAdjust_le text start (start + maxSize)
    refine ⟨by omega, hle, ?_⟩
    exact backAdjust_stop text start (start + maxSize) (by omega)

/-- Dissection of the chosen end when the budget falls short: either the
provisional end stands, or an accepted interior punctuation offset
replaces it. -/
lemma computeEnd_cases (text : List Nat) (maxSize start : Nat)
    (h : start + maxSize < text.length) :
    computeEnd text maxSize start = provisionalEnd text maxSize start ∨
    (computeEnd text maxSize start =
        start + findSplitPoint ((text.drop start).take (provisionalEnd text maxSize start - start)) ∧
      0 < findSplitPoint ((text.drop start).take (provisionalEnd text maxSize start - start)) ∧
      findSplitPoint ((text.drop start).take (provisionalEnd text maxSize start - start)) <
        provisionalEnd text maxSize start - start) := by
  have hcl := chunk_length text maxSize start (by omega)
  unfold computeEnd
  rw [if_neg (show ¬ text.length ≤ start + maxSize by omega)]
  split_ifs with hA hB
  · right
    rw [hcl] at hA
    exact ⟨rfl, hA.1, hA.2⟩
  · left
    rfl
  · left
    rfl

/-- Size analysis of every fragment from any cursor. -/
lemma splitTextAux_size : ∀ (N : Nat) (text : List Nat) (maxSize start : Nat),
    text.length - start ≤ N → 1 ≤ maxSize →
    ∀ F ∈ splitTextAux text maxSize start,
      F.length ≤ maxSize ∨ (decodeRune F = some F.length ∧ maxSize < F.length) := by
  intro N
  induction N with
  | zero =>
    intro text maxSize start hN hm F hF
    rw [splitTextAux, dif_neg (show ¬ start < text.length by omega)] at hF
    cases hF
  | succ N ih =>
    intro text maxSize start hN hm F hF
    by_cases hs : start < text.length
    · have hgt := computeEnd_gt text maxSize start hs
      rw [splitTextAux, dif_pos hs] at hF
      rcases List.mem_cons.mp hF with hF | hF
      · subst hF
        by_cases hcase : text.length ≤ start + maxSize
        · left
          rw [List.length_take, List.length_drop]
          omega
        · have hcase2 : start + maxSize < text.length := by omega
          have hrsle : decodeRuneSize (text.drop start) ≤ text.length - start := by
            have hx := decodeRuneSize_le
              (show ¬ (text.drop start).length = 0 by rw [List.length_drop]; omega)
            rw [List.length_drop] at hx
            exact hx
          rcases computeEnd_cases text maxSize start hcase2 with hce | ⟨hce, hsp1, hsp2⟩
          · rcases provisionalEnd_cases text maxSize start hcase2 with
              ⟨hg, hle, hrs⟩ | ⟨hpe, hrs1⟩
            · left
              rw [hce, List.length_take, List.length_drop]
              omega
            · rw [hce, hpe]
              have hsub : start + decodeRuneSize (text.drop start) - start =
                  decodeRuneSize (text.drop start) := by omega
              rw [hsub]
              by_cases hbig : decodeRuneSize (text.drop start) ≤ maxSize
              · left
                rw [List.length_take, List.length_drop]
                omega
              · right
                have h2 : 2 ≤ decodeRuneSize (text.drop start) := by omega
                have hd := decodeRuneSize_decode h2
                have hlenF : ((text.drop start).take (decodeRuneSize (text.drop start))).length =
                    decodeRuneSize (text.drop start) := by
                  rw [List.length_take, List.length_drop]
                  omega
                constructor
                · rw [hlenF]
                  exact decodeRune_take hd le_rfl
                · rw [hlenF]
                  omega
          · rcases provisionalEnd_cases text maxSize start hcase2 with
              ⟨hg, hle, hrs⟩ | ⟨hpe, hrs1⟩
            · left
              rw [hce, List.length_take, List.length_drop]
              omega
            · exfalso
              have hsub : start + decodeRuneSize (text.drop start) - start =
                  decodeRuneSize (text.drop start) := by omega
              rw [hpe, hsub] at hsp1 hsp2
              have hrs2 : 2 ≤ decodeRuneSize (text.drop start) := by omega
              have hd := decodeRuneSize_decode hrs2
              have hlenC : ((text.drop start).take (decodeRuneSize (text.drop start))).length =
                  decodeRuneSize (text.drop start) := by
                rw [List.length_take, List.length_drop]
                omega
              have hfs := findSplitPoint_single_rune (decodeRune_take hd le_rfl) hlenC
              rw [hfs, hlenC] at hsp2
              omega
      · exact ih text maxSize (computeEnd text maxSize start) (by omega) hm F hF
    · rw [splitTextAux, dif_neg hs] at hF
      cases hF

/-- C2. Size bound: for every input and every maxSize at least 1, each
fragment either fits the byte budget or is exactly one encoded character
whose own byte length exceeds the budget. -/
theorem splitText_size_bound (text : List Nat) (maxSize : Nat) (h : 1 ≤ maxSize) :
    ∀ F ∈ splitText text maxSize,
      F.length ≤ maxSize ∨ (decodeRune F = some F.length ∧ maxSize < F.length) := by
  intro F hF
  exact splitTextAux_size text.length text maxSize 0 (by omega) h F hF

/-- Witness for C2 at a concrete input: a three-byte character split
with budget 1 becomes one oversized single-character fragment. -/
theorem splitText_size_bound_witness :
    1 ≤ 1 ∧ ∀ F ∈ splitText [97, 227, 129, 130] 1,
      F.length ≤ 1 ∨ (decodeRune F = some F.length ∧ 1 < F.length) :=
  ⟨by decide, splitText_size_bound [97, 227, 129, 130] 1 (by decide)⟩

/-- Validity analysis: from a cursor whose suffix is valid UTF-8, every
fragment emitted by the loop is valid UTF-8. -/
lemma splitTextAux_valid : ∀ (N : Nat) (text : List Nat) (maxSize start : Nat),
    text.length - start ≤ N → validUTF8 (text.drop start) = true →
    ∀ F ∈ splitTextAux text maxSize start, validUTF8 F = true := by
  intro N
  induction N with
  | zero =>
    intro text maxSize start hN hv F hF
    rw [splitTextAux, dif_neg (show ¬ start < text.length by omega)] at hF
    cases hF
  | succ N ih =>
    intro text maxSize start hN hv F hF
    by_cases hs : start < text.length
    · have hgt := computeEnd_gt text maxSize start hs
      have hcle := computeEnd_le text maxSize start hs
      rw [splitTextAux, dif_pos hs] at hF
      have hdrop : text.drop (computeEnd text maxSize start) =
          (text.drop start).drop (computeEnd text maxSize start - start) := by
        rw [List.drop_drop]
        congr 1
        omega
      have hmain :
          validUTF8 ((text.drop start).take (computeEnd text maxSize start - start)) = true ∧
          validUTF8 ((text.drop start).drop (computeEnd text maxSize start - start)) = true := by
        by_cases hcase : text.length ≤ start + maxSize
        · have hce : computeEnd text maxSize start = text.length := by
            unfold computeEnd
            rw [if_pos hcase]
          rw [hce]
          have hlen2 : (text.drop start).length = text.length - start := by simp
          constructor
          · rw [← hlen2, List.take_length]
            exact hv
          · rw [← hlen2, List.drop_length]
            exact validUTF8_nil
        · have hcase2 : start + maxSize < text.length := by omega
          have hpl := provisionalEnd_le text maxSize start hs
          have hpg := provisionalEnd_gt text maxSize start hs
          rcases computeEnd_cases text maxSize start hcase2 with hce | ⟨hce, hsp1, hsp2⟩
          · rw [hce]
            rcases provisionalEnd_cases text maxSize start hcase2 with
              ⟨hg, hle2, hrs⟩ | ⟨hpe, hrs1⟩
            · have hbk : byteAt (text.drop start) (provisionalEnd text maxSize start - start) =
                  byteAt text (provisionalEnd text maxSize start) := by
                rw [byteAt_drop]
                congr 1
                omega
              exact validUTF8_split (text.drop start).length (text.drop start) le_rfl hv
                (provisionalEnd text maxSize start - start)
                (by rw [List.length_drop]; omega)
                (Or.inr (by rw [hbk]; exact hrs))
            · have hne : ¬ (text.drop start).length = 0 := by
                rw [List.length_drop]
                omega
              obtain ⟨n, hd, hrest⟩ := validUTF8_decode hv hne
              have hrsn : decodeRuneSize (text.drop start) = n := decodeRuneSize_of_decode hd
              have hsub : provisionalEnd text maxSize start - start = n := by
                rw [hpe, hrsn]
                omega
              rw [hsub]
              exact ⟨validUTF8_take_decode hd, hrest⟩
          · rw [hce]
            have hsub : start +
                findSplitPoint ((text.drop start).take (provisionalEnd text maxSize start - start)) -
                start =
                findSplitPoint ((text.drop start).take (provisionalEnd text maxSize start - start)) := by
              omega
            rw [hsub]
            have hcl := chunk_length text maxSize start hs
            rcases findSplitPoint_shape
                ((text.drop start).take (provisionalEnd text maxSize start - start)) with
              hsh | ⟨p, j, hp, hpre, heq, hle3⟩
            · exfalso
              rw [hsh, hcl] at hsp2
              omega
            · have hpre2 : p <+: (text.drop start).drop j := prefix_drop_take hpre
              have hjp : j + p.length ≤ (text.drop start).length := by
                rw [List.length_drop]
                omega
              rw [heq]
              exact validUTF8_punct_split hv hp hpre2 hjp
      rcases List.mem_cons.mp hF with hF | hF
      · subst hF
        exact hmain.1
      · refine ih text maxSize (computeEnd text maxSize start) (by omega) ?_ F hF
        rw [hdrop]
        exact hmain.2
    · rw [splitTextAux, dif_neg hs] at hF
      cases hF

/-- C3. Boundary safety: for valid UTF-8 input and any maxSize at least
1, every fragment returned by splitText is itself valid UTF-8, so no
fragment boundary, including the ones chosen by the punctuation search,
falls inside an encoded character. -/
theorem splitText_fragments_valid (text : List Nat) (maxSize : Nat)
    (hv : validUTF8 text = true) (h : 1 ≤ maxSize) :
    ∀ F ∈ splitText text maxSize, validUTF8 F = true := by
  intro F hF
  exact splitTextAux_valid text.length text maxSize 0 (by omega) (by simpa using hv) F hF

/-- Witness for C3 at a concrete input containing a multi-byte
character. -/
theorem splitText_fragments_valid_witness :
    validUTF8 [97, 227, 129, 130, 46, 98] = true ∧ 1 ≤ 2 ∧
      ∀ F ∈ splitText [97, 227, 129, 130, 46, 98] 2, validUTF8 F = true :=
  ⟨by decide, by decide,
    splitText_fragments_valid [97, 227, 129, 130, 46, 98] 2 (by decide) (by decide)⟩

end GTTS
